import Mathlib

/-!
Shallow embedding of `work.py` from the `project_taskjuggler` Tryton module.

The module extends project-tracking records with derived fields
(`calc_remain_hours`, `get_resources`, `get_taskjuggler_code`,
`get_dependencies`, `get_tasks`) and an `export` driver that renders
templates, invokes the external `tj3` scheduler through `command`, and
stores the result on the `taskjuggler.project` record.

Python floats are modelled as rationals (the properties at stake are exact
arithmetic identities), database records as Lean structures, record ids as
naturals, `None`-able fields as `Option`, and the unguarded recursive
predecessor walk as a fuel-indexed function.
-/

namespace TaskJugglerSpec

/-! ### `Work.calc_remain_hours` (work.py lines 79-87) -/

/-- The fields of `project.work` that `calc_remain_hours` reads.
`effort` and `hours` are nullable floats, `state` a selection string. -/
structure WorkHours where
  effort : Option ℚ
  hours : Option ℚ
  state : String
deriving DecidableEq, Repr

/-- Python truthiness default `v or d`: `None` and `0.0` are falsy. -/
def orDefault (v : Option ℚ) (d : ℚ) : ℚ :=
  match v with
  | none => d
  | some x => if x = 0 then d else x

/-- `effort = self.effort or 4.0` (work.py line 80). -/
def effortValue (w : WorkHours) : ℚ := orDefault w.effort 4

/-- `hours = self.hours or 0.0` (work.py line 81). -/
def hoursValue (w : WorkHours) : ℚ := orDefault w.hours 0

/-- `Work.calc_remain_hours` (work.py lines 79-87):
```
res = effort - hours
if effort - hours <= 0 and self.state == 'opened':
    res = 4.0 + (hours - effort)
if self.state == 'done':
    res = 0
return res
``` -/
def calc_remain_hours (w : WorkHours) : ℚ :=
  let effort := effortValue w
  let hours := hoursValue w
  let res := effort - hours
  let res := if effort - hours ≤ 0 ∧ w.state = "opened" then 4 + (hours - effort) else res
  if w.state = "done" then 0 else res

/-! ### `Work.get_resources` (work.py lines 93-96) -/

/-- A `company.employee` record: an id and the ids of its linked trackers. -/
structure EmployeeRec where
  id : ℕ
  trackers : List ℕ
deriving DecidableEq, Repr

/-- Python membership test `self.tracker in x.trackers`.  The work's
tracker is nullable; `None` is never an element of a tracker list. -/
def trackerMem (tracker : Option ℕ) (trackers : List ℕ) : Bool :=
  match tracker with
  | some t => trackers.contains t
  | none => false

/-- `Work.get_resources` (work.py lines 93-96): search over all employees,
keep those whose tracker list contains this work's tracker, return ids:
`[x.id for x in employees if self.tracker in x.trackers]`. -/
def get_resources (employees : List EmployeeRec) (tracker : Option ℕ) : List ℕ :=
  (employees.filter (fun x => trackerMem tracker x.trackers)).map EmployeeRec.id

/-! ### `Work.get_taskjuggler_code` (work.py lines 89-91) -/

/-- The parent work, as read by `get_taskjuggler_code` (only `code`). -/
structure ParentRec where
  code : String
deriving DecidableEq, Repr

/-- The tracker record, as read by `get_taskjuggler_code` (only `id`). -/
structure TrackerRec where
  id : ℕ
deriving DecidableEq, Repr

/-- The fields of `project.work` that `get_taskjuggler_code` reads;
`parent` and `tracker` are nullable relations. -/
structure CodedWork where
  parent : Option ParentRec
  tracker : Option TrackerRec
  code : String
deriving DecidableEq, Repr

/-- `Work.get_taskjuggler_code` (work.py lines 89-91):
`"task%s.task%st%s.task%s" % (self.parent.code, self.parent.code,
self.tracker.id, self.code)`.  Accessing `.code` on a `None` parent or
`.id` on a `None` tracker raises `AttributeError`, modelled as `none`. -/
def get_taskjuggler_code (w : CodedWork) : Option String :=
  match w.parent, w.tracker with
  | some p, some t =>
      some ("task" ++ p.code ++ ".task" ++ p.code ++ "t" ++ toString t.id
        ++ ".task" ++ w.code)
  | _, _ => none

/-! ### `command` and the tail of `TaskJuggler.export` (work.py 26-29, 219-224) -/

/-- Observable outcome of running the external `tj3` binary: what it wrote
to stdout and stderr, and its exit status. -/
structure ProcOutcome where
  stdout : String
  stderr : String
  exit_status : ℤ
deriving DecidableEq, Repr

/-- `Popen(...).communicate()`: a stream's content is returned only when
that stream was redirected to a pipe; otherwise `None` is returned for it. -/
def communicate (pipeOut pipeErr : Bool) (p : ProcOutcome) :
    Option String × Option String :=
  (if pipeOut then some p.stdout else none,
   if pipeErr then some p.stderr else none)

/-- `command` (work.py lines 26-29): `subprocess.Popen(cmd,
stdout=subprocess.PIPE)` pipes only stdout; `communicate()` then yields
`(output, err)` where `err` is `None`.  The exit status is never read. -/
def command (p : ProcOutcome) : Option String × Option String :=
  communicate true false p

/-- The result message the export stores for a subprocess outcome:
`result, error = command(cmd)` followed by storing `result` (work.py
lines 221-223).  `error` is discarded. -/
def exportResultMsg (p : ProcOutcome) : Option String :=
  (command p).1

/-- The fields of a `taskjuggler.project` record touched at the end of
`export`.  `exported_date` and `exported_msg` are the declared fields
(work.py lines 161-162); `expored_msg` is the dynamically created
attribute actually assigned on line 223 (absent before export). -/
structure ProjectRecord where
  exported_date : Option ℕ
  exported_msg : Option (Option String)
  expored_msg : Option (Option String)
deriving DecidableEq, Repr

/-- The record update performed by `TaskJuggler.export` for one project
(work.py lines 221-224): `project.exported_date = datetime.now()` and
`project.expored_msg = result` (note the misspelt attribute name in the
source), followed by `project.save()`. -/
def export_finish (p : ProjectRecord) (now : ℕ) (outcome : ProcOutcome) :
    ProjectRecord :=
  { p with
    exported_date := some now
    expored_msg := some (exportResultMsg outcome) }

/-! ### `Work.get_dependencies` and `Work.get_tasks` (work.py 104-124)

The predecessor relation is modelled as `g : ℕ → List ℕ`, mapping a work
id to the ids of its direct predecessors.  `get_dependencies` in the
source is an unguarded recursive walk; Lean functions are total, so the
walk is indexed by fuel (`none` means the walk did not finish within the
given recursion depth — the source would still be recursing). -/

/-- `Work.get_dependencies` (work.py lines 104-112):
```
if not self.predecessors:
    return []
dependencies = []
for task in self.predecessors:
    dependencies.append(task)
    dependencies += task.get_dependencies()
return dependencies
```
Fuel bounds the recursion depth; the loop over the predecessor list is
folded at the same depth. -/
def get_dependencies (g : ℕ → List ℕ) : ℕ → ℕ → Option (List ℕ)
  | fuel, w =>
    if g w = [] then some []
    else
      match fuel with
      | 0 => none
      | fuel + 1 =>
        (g w).foldr
          (fun t acc =>
            match get_dependencies g fuel t, acc with
            | some sub, some rest => some (t :: (sub ++ rest))
            | _, _ => none)
          (some [])

/-- The loop body of `get_dependencies` as a standalone list walk:
`[t1] ++ deps(t1) ++ [t2] ++ deps(t2) ++ ...` over a list of ids. -/
def getDepsList (g : ℕ → List ℕ) (fuel : ℕ) : List ℕ → Option (List ℕ)
  | [] => some []
  | t :: ts =>
    match get_dependencies g fuel t, getDepsList g fuel ts with
    | some sub, some rest => some (t :: (sub ++ rest))
    | _, _ => none

/-- Concatenation of `get_dependencies` over a list of ids, mirroring
`for task in tasks: dependencies += task.get_dependencies()` in
`get_tasks` (the heads themselves are not included). -/
def depsOfList (g : ℕ → List ℕ) (fuel : ℕ) : List ℕ → Option (List ℕ)
  | [] => some []
  | t :: ts =>
    match get_dependencies g fuel t, depsOfList g fuel ts with
    | some sub, some rest => some (sub ++ rest)
    | _, _ => none

/-- A `project.work` record as read by `get_tasks`: id, nullable parent
id, state, and the ids of its direct predecessors. -/
structure WorkRec where
  id : ℕ
  parent : Option ℕ
  state : String
  preds : List ℕ
deriving DecidableEq, Repr

/-- The predecessor relation induced by a database of work records. -/
def predOf (db : List WorkRec) (i : ℕ) : List ℕ :=
  match db.find? (fun w => w.id == i) with
  | some w => w.preds
  | none => []

/-- `self.search([('parent', '=', self.id), ('state', '=', 'opened')])`
(work.py lines 115-118). -/
def openedChildren (db : List WorkRec) (self : ℕ) : List WorkRec :=
  db.filter (fun w => w.parent == some self && w.state == "opened")

/-- `Work.get_tasks` (work.py lines 114-124): opened children of `self`,
their dependency walks concatenated, and `list(set([task.id for task in
tasks + dependencies]))` — deduplication by id.  The Python `set` loses
order; the model keeps first occurrences. -/
def get_tasks (db : List WorkRec) (fuel : ℕ) (self : ℕ) : Option (List ℕ) :=
  match depsOfList (predOf db) fuel ((openedChildren db self).map WorkRec.id) with
  | none => none
  | some deps => some (((openedChildren db self).map WorkRec.id ++ deps).dedup)

/-- `x` is a proper transitive predecessor of `w`: reachable from `w` by
one or more predecessor edges.  This is the denotation of "dependency
closure". -/
inductive Reaches (g : ℕ → List ℕ) : ℕ → ℕ → Prop
  | direct {w t : ℕ} : t ∈ g w → Reaches g w t
  | step {w t x : ℕ} : t ∈ g w → Reaches g t x → Reaches g w x

/-- Acyclicity witnessed by a rank function strictly decreasing along
predecessor edges. -/
def RankedAcyclic (g : ℕ → List ℕ) (r : ℕ → ℕ) : Prop :=
  ∀ a b, b ∈ g a → r b < r a

/-- The one-node graph whose single work is its own predecessor. -/
def selfLoopGraph : ℕ → List ℕ := fun _ => [0]

/-- The empty predecessor relation. -/
def emptyGraph : ℕ → List ℕ := fun _ => []

/-- The diamond: work 0 depends on 1 and 2, each of which depends on 3. -/
def diamondGraph : ℕ → List ℕ :=
  fun w => if w = 0 then [1, 2] else if w = 1 then [3] else if w = 2 then [3] else []

/-- A rank function decreasing along the diamond's predecessor edges. -/
def diamondRank : ℕ → ℕ :=
  fun w => if w = 0 then 2 else if w = 3 then 0 else 1

/-- A concrete database: work 0 is an opened child of project 10 and has
the diamond 0 → {1, 2} → 3 as predecessor graph; 1, 2, 3 are not children
of 10 (and 2 is done). -/
def dbDiamond : List WorkRec :=
  [⟨0, some 10, "opened", [1, 2]⟩,
   ⟨1, none, "opened", [3]⟩,
   ⟨2, none, "done", [3]⟩,
   ⟨3, none, "opened", []⟩]

/-! ### Lemmas about the dependency walk -/

lemma foldr_eq_getDepsList (g : ℕ → List ℕ) (fuel : ℕ) (ts : List ℕ) :
    ts.foldr
      (fun t acc =>
        match get_dependencies g fuel t, acc with
        | some sub, some rest => some (t :: (sub ++ rest))
        | _, _ => none)
      (some []) = getDepsList g fuel ts := by
  induction ts with
  | nil => rfl
  | cons t ts ih =>
    simp only [List.foldr]
    rw [ih]
    rfl

lemma get_dependencies_eq (g : ℕ → List ℕ) (fuel w : ℕ) :
    get_dependencies g fuel w =
      if g w = [] then some []
      else
        match fuel with
        | 0 => none
        | fuel + 1 => getDepsList g fuel (g w) := by
  rw [get_dependencies.eq_def]
  rcases fuel with _ | fuel
  · rfl
  · by_cases h : g w = []
    · simp [h]
    · simp [h, foldr_eq_getDepsList]

lemma reaches_iff (g : ℕ → List ℕ) (w x : ℕ) :
    Reaches g w x ↔ ∃ t ∈ g w, x = t ∨ Reaches g t x := by
  constructor
  · intro h
    cases h with
    | direct ht => exact ⟨_, ht, Or.inl rfl⟩
    | step ht hr => exact ⟨_, ht, Or.inr hr⟩
  · rintro ⟨t, ht, rfl | hr⟩
    · exact Reaches.direct ht
    · exact Reaches.step ht hr

lemma get_dependencies_mem (g : ℕ → List ℕ) :
    ∀ fuel w l, get_dependencies g fuel w = some l →
      ∀ x, x ∈ l ↔ Reaches g w x := by
  intro fuel
  induction fuel with
  | zero =>
    intro w l h x
    rw [get_dependencies_eq] at h
    by_cases hw : g w = []
    · rw [if_pos hw] at h
      obtain rfl : ([] : List ℕ) = l := by simpa using h
      simp [reaches_iff g w x, hw]
    · rw [if_neg hw] at h
      simp at h
  | succ fuel ih =>
    intro w l h x
    rw [get_dependencies_eq] at h
    by_cases hw : g w = []
    · rw [if_pos hw] at h
      obtain rfl : ([] : List ℕ) = l := by simpa using h
      simp [reaches_iff g w x, hw]
    · rw [if_neg hw] at h
      have aux : ∀ ts l, getDepsList g fuel ts = some l →
          ∀ x, x ∈ l ↔ ∃ t ∈ ts, x = t ∨ Reaches g t x := by
        intro ts
        induction ts with
        | nil =>
          intro l hl x
          obtain rfl : ([] : List ℕ) = l := by simpa [getDepsList] using hl
          simp
        | cons t ts ihts =>
          intro l hl x
          cases hsub : get_dependencies g fuel t with
          | none => rw [getDepsList, hsub] at hl; simp at hl
          | some sub =>
            cases hrest : getDepsList g fuel ts with
            | none => rw [getDepsList, hsub, hrest] at hl; simp at hl
            | some rest =>
              rw [getDepsList, hsub, hrest] at hl
              obtain rfl : t :: (sub ++ rest) = l := by simpa using hl
              rw [List.mem_cons, List.mem_append]
              rw [ih t sub hsub x, ihts rest hrest x]
              constructor
              · rintro (h1 | hx | ⟨u, hu, hux⟩)
                · exact ⟨t, List.mem_cons_self t ts, Or.inl h1⟩
                · exact ⟨t, List.mem_cons_self t ts, Or.inr hx⟩
                · exact ⟨u, List.mem_cons_of_mem t hu, hux⟩
              · rintro ⟨u, hu, hux⟩
                rcases List.mem_cons.mp hu with h2 | hu2
                · subst h2
                  rcases hux with h3 | hx
                  · exact Or.inl h3
                  · exact Or.inr (Or.inl hx)
                · exact Or.inr (Or.inr ⟨u, hu2, hux⟩)
      rw [aux (g w) l h x, reaches_iff g w x]

lemma get_dependencies_nil (g : ℕ → List ℕ) (fuel w : ℕ) (h : g w = []) :
    get_dependencies g fuel w = some [] := by
  rw [get_dependencies_eq, if_pos h]

lemma get_dependencies_terminates (g : ℕ → List ℕ) (r : ℕ → ℕ)
    (hr : RankedAcyclic g r) :
    ∀ fuel w, r w ≤ fuel → ∃ l, get_dependencies g fuel w = some l := by
  intro fuel
  induction fuel with
  | zero =>
    intro w hw
    rcases hgw : g w with _ | ⟨t, ts⟩
    · exact ⟨[], get_dependencies_nil g 0 w hgw⟩
    · exfalso
      have := hr w t (by rw [hgw]; exact List.mem_cons_self t ts)
      omega
  | succ fuel ih =>
    intro w hw
    by_cases hgw : g w = []
    · exact ⟨[], get_dependencies_nil g (fuel + 1) w hgw⟩
    · have aux : ∀ ts, (∀ t ∈ ts, t ∈ g w) → ∃ l, getDepsList g fuel ts = some l := by
        intro ts
        induction ts with
        | nil => intro _; exact ⟨[], rfl⟩
        | cons t ts ihts =>
          intro hmem
          obtain ⟨sub, hsub⟩ := ih t (by
            have := hr w t (hmem t (List.mem_cons_self t ts))
            omega)
          obtain ⟨rest, hrest⟩ := ihts (fun u hu => hmem u (List.mem_cons_of_mem t hu))
          exact ⟨t :: (sub ++ rest), by rw [getDepsList, hsub, hrest]⟩
      obtain ⟨l, hl⟩ := aux (g w) (fun t ht => ht)
      refine ⟨l, ?_⟩
      rw [get_dependencies_eq, if_neg hgw]
      exact hl

lemma selfLoop_diverges : ∀ fuel, get_dependencies selfLoopGraph fuel 0 = none := by
  intro fuel
  induction fuel with
  | zero => rw [get_dependencies_eq]; simp [selfLoopGraph]
  | succ fuel ih =>
    rw [get_dependencies_eq]
    simp [selfLoopGraph, getDepsList, ih]

lemma depsOfList_mem (g : ℕ → List ℕ) (fuel : ℕ) :
    ∀ ts l, depsOfList g fuel ts = some l →
      ∀ x, x ∈ l ↔ ∃ t ∈ ts, Reaches g t x := by
  intro ts
  induction ts with
  | nil =>
    intro l hl x
    obtain rfl : ([] : List ℕ) = l := by simpa [depsOfList] using hl
    simp
  | cons t ts ihts =>
    intro l hl x
    cases hsub : get_dependencies g fuel t with
    | none => rw [depsOfList, hsub] at hl; simp at hl
    | some sub =>
      cases hrest : depsOfList g fuel ts with
      | none => rw [depsOfList, hsub, hrest] at hl; simp at hl
      | some rest =>
        rw [depsOfList, hsub, hrest] at hl
        obtain rfl : sub ++ rest = l := by simpa using hl
        rw [List.mem_append]
        rw [get_dependencies_mem g fuel t sub hsub x, ihts rest hrest x]
        constructor
        · rintro (hx | ⟨u, hu, hux⟩)
          · exact ⟨t, List.mem_cons_self t ts, hx⟩
          · exact ⟨u, List.mem_cons_of_mem t hu, hux⟩
        · rintro ⟨u, hu, hux⟩
          rcases List.mem_cons.mp hu with h2 | hu2
          · subst h2
            exact Or.inl hux
          · exact Or.inr ⟨u, hu2, hux⟩

lemma get_tasks_some (db : List WorkRec) (self fuel : ℕ) (l : List ℕ)
    (h : get_tasks db fuel self = some l) :
    ∃ deps,
      depsOfList (predOf db) fuel ((openedChildren db self).map WorkRec.id) = some deps ∧
      l = ((openedChildren db self).map WorkRec.id ++ deps).dedup := by
  unfold get_tasks at h
  cases hd : depsOfList (predOf db) fuel ((openedChildren db self).map WorkRec.id) with
  | none => rw [hd] at h; simp at h
  | some deps =>
    rw [hd] at h
    exact ⟨deps, rfl, by simpa using h.symm⟩

/-! ### Claim theorems -/

/-- C2: `calc_remain_hours` returns `effort - hours` when that difference
is positive (a "done" state overrides it to 0, as the claim's last clause
states); when the state is "opened" and the difference is non-positive it
returns 4.0 plus the overrun `hours - effort`; when the state is "done" it
returns 0; effort defaults to 4.0 when unset; and the spec's four concrete
examples hold. -/
theorem calc_remain_hours_spec (w : WorkHours) :
    (0 < effortValue w - hoursValue w → w.state ≠ "done" →
      calc_remain_hours w = effortValue w - hoursValue w) ∧
    (w.state = "opened" → effortValue w - hoursValue w ≤ 0 →
      calc_remain_hours w = 4 + (hoursValue w - effortValue w)) ∧
    (w.state = "done" → calc_remain_hours w = 0) ∧
    (w.effort = none → effortValue w = 4) ∧
    calc_remain_hours ⟨some 8, some 3, "opened"⟩ = 5 ∧
    calc_remain_hours ⟨some 8, some 8, "opened"⟩ = 4 ∧
    calc_remain_hours ⟨some 8, some 10, "opened"⟩ = 6 ∧
    (∀ e h, calc_remain_hours ⟨e, h, "done"⟩ = 0) := by
  have hod : ("opened" : String) ≠ "done" := by decide
  refine ⟨?_, ?_, ?_, ?_, ?_, ?_, ?_, ?_⟩
  · intro hpos hnd
    have hcond : ¬(effortValue w - hoursValue w ≤ 0 ∧ w.state = "opened") :=
      fun hc => absurd hpos (not_lt.mpr hc.1)
    simp only [calc_remain_hours]
    rw [if_neg hcond, if_neg hnd]
  · intro hop hle
    have hnd : w.state ≠ "done" := by rw [hop]; exact hod
    simp only [calc_remain_hours]
    rw [if_neg hnd, if_pos ⟨hle, hop⟩]
  · intro hd
    simp only [calc_remain_hours]
    rw [if_pos hd]
  · intro he
    simp [effortValue, orDefault, he]
  · norm_num [calc_remain_hours, effortValue, hoursValue, orDefault, hod]
  · norm_num [calc_remain_hours, effortValue, hoursValue, orDefault, hod]
  · norm_num [calc_remain_hours, effortValue, hoursValue, orDefault, hod]
  · intro e h
    simp [calc_remain_hours]

/-- C2 witness: the "done" clause of `calc_remain_hours_spec` at a
concrete work. -/
theorem calc_remain_hours_spec_witness :
    calc_remain_hours ⟨none, none, "done"⟩ = 0 :=
  (calc_remain_hours_spec ⟨none, none, "done"⟩).2.2.1 rfl

/-- C10: for every work in state "opened", `calc_remain_hours` is strictly
positive, however large the logged hours are. -/
theorem calc_remain_hours_opened_positive (w : WorkHours)
    (h : w.state = "opened") : 0 < calc_remain_hours w := by
  have hnd : w.state ≠ "done" := by rw [h]; decide
  simp only [calc_remain_hours]
  rw [if_neg hnd]
  by_cases hle : effortValue w - hoursValue w ≤ 0 ∧ w.state = "opened"
  · rw [if_pos hle]
    have h1 := hle.1
    linarith
  · rw [if_neg hle]
    have h2 : ¬(effortValue w - hoursValue w ≤ 0) := fun hc => hle ⟨hc, h⟩
    linarith

/-- C10 witness: an opened work with a 2-hour overrun still has positive
remaining hours. -/
theorem calc_remain_hours_opened_positive_witness :
    0 < calc_remain_hours ⟨some 8, some 10, "opened"⟩ :=
  calc_remain_hours_opened_positive ⟨some 8, some 10, "opened"⟩ rfl

/-- C1 (code bug): at a concrete export (timestamp 7, subprocess stdout
"ok"), `export` sets `exported_date` to the completion timestamp, but the
declared field `exported_msg` stays unset: line 223 of work.py assigns the
misspelt attribute `expored_msg`, which receives the captured output
instead. -/
theorem export_writes_misspelt_attribute :
    (export_finish ⟨none, none, none⟩ 7 ⟨"ok", "", 0⟩).exported_date = some 7 ∧
    (export_finish ⟨none, none, none⟩ 7 ⟨"ok", "", 0⟩).exported_msg = none ∧
    (export_finish ⟨none, none, none⟩ 7 ⟨"ok", "", 0⟩).expored_msg = some (some "ok") :=
  ⟨rfl, rfl, rfl⟩

/-- C5 counterexample: for a subprocess that writes "boom" to stderr and
exits with status 1, `command` returns `None` for the error component
(stderr is not piped), and the surfaced result message is exactly the
stdout — identical to the message for a clean run with empty stderr and
exit status 0.  Neither the stderr content nor the exit status is captured
or surfaced. -/
theorem stderr_and_exit_status_not_captured :
    (command ⟨"out", "boom", 1⟩).2 = none ∧
    exportResultMsg ⟨"out", "boom", 1⟩ = some "out" ∧
    exportResultMsg ⟨"out", "boom", 1⟩ = exportResultMsg ⟨"out", "", 0⟩ :=
  ⟨rfl, rfl, rfl⟩

/-- C5 (amended): `command` captures only stdout — its error component is
always `None` — and the result message surfaced by export is the raw
stdout verbatim; in particular the message depends only on stdout, never
on stderr or the exit status. -/
theorem command_captures_only_stdout (p : ProcOutcome) :
    command p = (some p.stdout, none) ∧
    exportResultMsg p = some p.stdout ∧
    (∀ q : ProcOutcome, q.stdout = p.stdout →
      exportResultMsg q = exportResultMsg p) := by
  refine ⟨rfl, rfl, fun q hq => ?_⟩
  simp [exportResultMsg, command, communicate, hq]

/-- C5 witness: `command_captures_only_stdout` at concrete outcomes. -/
theorem command_captures_only_stdout_witness :
    command ⟨"out", "boom", 1⟩ = (some "out", none) ∧
    exportResultMsg ⟨"ok", "", 0⟩ = exportResultMsg ⟨"ok", "err", 5⟩ :=
  ⟨(command_captures_only_stdout ⟨"out", "boom", 1⟩).1,
   (command_captures_only_stdout ⟨"ok", "err", 5⟩).2.2 ⟨"ok", "", 0⟩ rfl⟩

/-- C6: `get_taskjuggler_code` fails exactly when the parent or the
tracker is absent, and otherwise formats the identifier from the parent's
code (twice), the tracker's id and the work's own code. -/
theorem get_taskjuggler_code_spec (w : CodedWork) :
    (get_taskjuggler_code w = none ↔ w.parent = none ∨ w.tracker = none) ∧
    (∀ p t, w.parent = some p → w.tracker = some t →
      get_taskjuggler_code w =
        some ("task" ++ p.code ++ ".task" ++ p.code ++ "t" ++ toString t.id
          ++ ".task" ++ w.code)) := by
  constructor
  · cases hp : w.parent with
    | none => simp [get_taskjuggler_code, hp]
    | some p =>
      cases ht : w.tracker with
      | none => simp [get_taskjuggler_code, hp, ht]
      | some t => simp [get_taskjuggler_code, hp, ht]
  · intro p t hp ht
    simp [get_taskjuggler_code, hp, ht]

/-- C6 witness: the formatted identifier for parent code "P", tracker id 3
and own code "7", and the failure on a missing parent. -/
theorem get_taskjuggler_code_spec_witness :
    get_taskjuggler_code ⟨some ⟨"P"⟩, some ⟨3⟩, "7"⟩ =
      some "taskP.taskPt3.task7" :=
  (get_taskjuggler_code_spec ⟨some ⟨"P"⟩, some ⟨3⟩, "7"⟩).2 ⟨"P"⟩ ⟨3⟩ rfl rfl

/-- C8: `get_resources` returns exactly the ids of employees whose tracker
list contains the work's tracker. -/
theorem get_resources_spec (employees : List EmployeeRec) (t x : ℕ) :
    x ∈ get_resources employees (some t) ↔
      ∃ e ∈ employees, e.id = x ∧ t ∈ e.trackers := by
  simp only [get_resources, List.mem_map, List.mem_filter, trackerMem]
  constructor
  · rintro ⟨e, ⟨he, hc⟩, rfl⟩
    exact ⟨e, he, rfl, by simpa using hc⟩
  · rintro ⟨e, he, rfl, hc⟩
    exact ⟨e, ⟨he, by simpa using hc⟩, rfl⟩

/-- C9: a work whose predecessor list is empty has an empty dependency
walk, at every recursion budget. -/
theorem get_dependencies_empty (g : ℕ → List ℕ) (fuel w : ℕ)
    (h : g w = []) : get_dependencies g fuel w = some [] :=
  get_dependencies_nil g fuel w h

/-- C9 witness: the empty graph at work 5. -/
theorem get_dependencies_empty_witness :
    get_dependencies emptyGraph 0 5 = some [] :=
  get_dependencies_empty emptyGraph 0 5 rfl

/-- C3: on the diamond (0 depends on 1 and 2, both depend on 3), the raw
recursive walk for work 0 is `[1, 3, 2, 3]`, and after the caller's
dedup-by-identity the closure contains exactly {1, 2, 3} with no
duplicates. -/
theorem diamond_closure :
    get_dependencies diamondGraph 2 0 = some [1, 3, 2, 3] ∧
    (∀ x : ℕ, x ∈ ([1, 3, 2, 3] : List ℕ).dedup ↔ x = 1 ∨ x = 2 ∨ x = 3) ∧
    ([1, 3, 2, 3] : List ℕ).dedup.Nodup := by
  have hd : ([1, 3, 2, 3] : List ℕ).dedup = [1, 2, 3] := by decide
  refine ⟨rfl, ?_, List.nodup_dedup _⟩
  intro x
  rw [hd]
  simp [List.mem_cons, or_assoc]

/-- C4: when the predecessor graph is acyclic — witnessed by a rank
function strictly decreasing along predecessor edges — the recursive walk
terminates within fuel `r w`; and the walk has no cycle guard: on the
graph where work 0 is its own predecessor it fails to finish at every
recursion budget. -/
theorem get_dependencies_terminates_acyclic (g : ℕ → List ℕ) (r : ℕ → ℕ)
    (hr : RankedAcyclic g r) (w : ℕ) :
    (∃ l, get_dependencies g (r w) w = some l) ∧
    (∀ fuel, get_dependencies selfLoopGraph fuel 0 = none) :=
  ⟨get_dependencies_terminates g r hr (r w) w le_rfl, selfLoop_diverges⟩

/-- C4 witness: the diamond graph with its rank function. -/
theorem get_dependencies_terminates_acyclic_witness :
    (∃ l, get_dependencies diamondGraph (diamondRank 0) 0 = some l) ∧
    (∀ fuel, get_dependencies selfLoopGraph fuel 0 = none) :=
  get_dependencies_terminates_acyclic diamondGraph diamondRank
    (by
      intro a b hb
      simp only [diamondGraph] at hb
      split_ifs at hb with h0 h1 h2
      · subst h0
        rcases List.mem_cons.mp hb with rfl | hb
        · decide
        · rcases List.mem_cons.mp hb with rfl | hb
          · decide
          · simp at hb
      · subst h1
        rcases List.mem_cons.mp hb with rfl | hb
        · decide
        · simp at hb
      · subst h2
        rcases List.mem_cons.mp hb with rfl | hb
        · decide
        · simp at hb
      · simp at hb)
    0

/-- C7: whenever `get_tasks` finishes, its result has no duplicates and
contains exactly the ids of the opened children of `self` together with
everything reachable from such a child through predecessor edges. -/
theorem get_tasks_correct (db : List WorkRec) (self fuel : ℕ) (l : List ℕ)
    (h : get_tasks db fuel self = some l) :
    l.Nodup ∧
    ∀ x, x ∈ l ↔
      ((∃ w ∈ openedChildren db self, w.id = x) ∨
       (∃ w ∈ openedChildren db self, Reaches (predOf db) w.id x)) := by
  obtain ⟨deps, hd, rfl⟩ := get_tasks_some db self fuel l h
  refine ⟨List.nodup_dedup _, fun x => ?_⟩
  rw [List.mem_dedup, List.mem_append]
  rw [depsOfList_mem (predOf db) fuel _ deps hd x]
  constructor
  · rintro (hx | ⟨t, ht, hr⟩)
    · rcases List.mem_map.mp hx with ⟨w, hw, rfl⟩
      exact Or.inl ⟨w, hw, rfl⟩
    · rcases List.mem_map.mp ht with ⟨w, hw, rfl⟩
      exact Or.inr ⟨w, hw, hr⟩
  · rintro (⟨w, hw, rfl⟩ | ⟨w, hw, hr⟩)
    · exact Or.inl (List.mem_map.mpr ⟨w, hw, rfl⟩)
    · exact Or.inr ⟨w.id, List.mem_map.mpr ⟨w, hw, rfl⟩, hr⟩

/-- C7 witness: in `dbDiamond`, `get_tasks` of project 10 finishes with
`[0, 1, 2, 3]` — the opened child 0 plus its dependency closure,
deduplicated. -/
theorem get_tasks_correct_witness :
    ([0, 1, 2, 3] : List ℕ).Nodup ∧
    ∀ x, x ∈ ([0, 1, 2, 3] : List ℕ) ↔
      ((∃ w ∈ openedChildren dbDiamond 10, w.id = x) ∨
       (∃ w ∈ openedChildren dbDiamond 10, Reaches (predOf dbDiamond) w.id x)) :=
  get_tasks_correct dbDiamond 10 2 [0, 1, 2, 3] rfl

end TaskJugglerSpec
